import Mathlib

/-!
Verification of the Tiler module (tile-grid enumeration) of the id-sdk
repository.

The Tiler source (`tiler.ts`) is embedded shallowly over `ℚ`.  JavaScript
numbers are modelled as exact rationals; `Math.PI` is irrational, so a
projection's scale factor `scale` is represented by the rational product
`sPi = scale * π` — the source uses `scale` only through `scale * Math.PI`
(the world-pixel origin) and through `geoScaleToZoom(scale, tileSize)
= log2(scale * 2π / tileSize) = log2(2 * sPi / tileSize)`, so this is an
exact change of coordinates, not an approximation.

The collaborators `Extent`, `Projection` and the `geo` scale/zoom
conversions are imported by `tiler.ts` but their sources are not part of
this repository snapshot; they are modelled from the spec (each such
definition is marked `Modelled from the spec:`).

JavaScript failure semantics: `range(start, end)` in the source builds
`Array(1 + end - start)`, and the `Array` constructor throws a RangeError
unless its argument is an integer in `[0, 2^32)`.  A computation that
would throw is modelled as `none`.  Likewise `geoScaleToZoom` applied to a
non-positive argument is undefined (`log2` of a non-positive number; NaN or
-Infinity in JavaScript float semantics), and a non-positive tile size makes
the `log2(tileSize)` term of `k` undefined as well; both are modelled as
`none` at the zoom computation.  (In JavaScript the boundary case of scale
exactly 0 produces -Infinity rather than NaN and can fall through to a
degenerate one-tile answer; this float-only corner is coarsened to `none`
here, and no claim depends on it.)
-/

/-- 2D vector of rational coordinates (the source's `Vec2`). -/
abbrev Vec2 : Type := ℚ × ℚ

/-- Modelled from the spec: the `Extent` collaborator (§4.2, source file
`extent.ts` not in the snapshot) is an axis-aligned box holding a min and
a max corner; the constructor normalizes the two given corners so that
`lo ≤ hi` componentwise. -/
structure Extent where
  lo : Vec2
  hi : Vec2
deriving DecidableEq

/-- Modelled from the spec: `new Extent(a, b)` stores the componentwise
min and max of the two corner points. -/
def Extent.make (a b : Vec2) : Extent :=
  ⟨(min a.1 b.1, min a.2 b.2), (max a.1 b.1, max a.2 b.2)⟩

/-- Modelled from the spec: `Extent.intersects` is true iff the two boxes
overlap or touch on both axes (inclusive of shared boundaries). -/
def Extent.intersects (e f : Extent) : Bool :=
  decide (e.lo.1 ≤ f.hi.1 ∧ f.lo.1 ≤ e.hi.1 ∧ e.lo.2 ≤ f.hi.2 ∧ f.lo.2 ≤ e.hi.2)

/-- The source's `clamp(num, min, max) = Math.max(min, Math.min(num, max))`
(tiler.ts lines 34-36), stated for any linear order so it serves both the
rational tile-index clamps and the integer zoom clamp. -/
def clamp {α : Type} [LinearOrder α] (num mn mx : α) : α :=
  max mn (min num mx)

/-- The source's `range(start, end)` (tiler.ts lines 38-40):
`Array.from(Array(1 + end - start).keys()).map(v => start + v)`.
The JavaScript `Array(len)` constructor throws a RangeError unless `len`
is an integer in `[0, 2^32)`; that failure is modelled as `none`
(`(⌊len⌋ : ℚ) = len` states that `len` is an integer). -/
def range (start stop : ℚ) : Option (List ℚ) :=
  let len : ℚ := 1 + stop - start
  if 0 ≤ len ∧ ((⌊len⌋ : ℚ) = len) ∧ len < 2 ^ 32 then
    some ((List.range ⌊len⌋.toNat).map fun v : ℕ => start + (v : ℚ))
  else none

/-- Modelled from the spec: `geoScaleToZoom(scale, tileSize) =
log2(scale * 2π / tileSize)` (§4.3, source file `geo.ts` not in the
snapshot), composed with `Math.round` as used at tiler.ts line 130.
For an argument `q = 2 * sPi / tileSize = 2^zFrac` this computes
`round(log2 q)`: `Int.log 2 q = ⌊log2 q⌋`, and the fractional part is at
least 1/2 exactly when `2^(2 * ⌊log2 q⌋ + 1) ≤ q^2`.  `log2` of a
non-positive number is undefined (NaN / -Infinity in JavaScript), hence
`none`. -/
def roundLog2 (q : ℚ) : Option ℤ :=
  if 0 < q then
    some (if (2 : ℚ) ^ (2 * Int.log 2 q + 1) ≤ q ^ 2 then Int.log 2 q + 1 else Int.log 2 q)
  else none

/-- The caller-supplied projection state read by `getTiles`
(tiler.ts lines 125-127): viewport pixel dimensions, pixel translation,
and scale factor, the last represented exactly by `sPi = scale * π`. -/
structure Proj where
  translate : Vec2
  dimMin : Vec2
  dimMax : Vec2
  sPi : ℚ
deriving DecidableEq

/-- The state of the "centered" projection built inside `getTiles`
(tiler.ts line 146): `new Projection(worldOrigin, worldOrigin,
worldScale)`.  Its scale is again represented by `sPi = worldScale * π`;
since `worldScale = geoZoomToScale(z, tileSize) = tileSize * 2^z / (2π)`,
this product equals `worldOrigin = (2^z / 2) * tileSize` exactly. -/
structure PState where
  translate : Vec2
  sPi : ℚ
deriving DecidableEq

/-- The Tiler instance configuration (tiler.ts lines 43-46) with its
default values.  The zoom range is taken over `ℤ` (the spec's data model
§3 declares it a pair of integers). -/
structure Tiler where
  tileSize : ℚ := 256
  zoomRange : ℤ × ℤ := (0, 24)
  margin : ℚ := 0
  skipNullIsland : Bool := false
deriving DecidableEq

/-- Renders one coordinate of a tile id the way JavaScript renders a
number in `Array.prototype.toString`: integral values print with no
fractional part.  (Non-integral coordinates, reachable only through a
fractional margin, print decimally in JavaScript; no claim touches
them.) -/
def numStr (q : ℚ) : String :=
  if q.den = 1 then toString q.num else toString q

/-- The tile identifier string `xyz.toString()` (tiler.ts line 177),
i.e. the comma-joined rendering "x,y,z". -/
def tileId (x y : ℚ) (z : ℤ) : String :=
  numStr x ++ "," ++ numStr y ++ "," ++ toString z

/-- The per-tile descriptor (tiler.ts lines 14-25). -/
structure Tile where
  id : String
  xyz : ℚ × ℚ × ℤ
  pxExtent : Extent
  wgs84Extent : Extent
  isVisible : Bool
deriving DecidableEq

/-- `Tiler.isNearNullIsland(x, y, z)` (tiler.ts lines 320-329). -/
def Tiler.isNearNullIsland (x y : ℚ) (z : ℤ) : Bool :=
  if 7 ≤ z then
    let center : ℚ := (2 : ℚ) ^ (z - 1)
    let width : ℚ := (2 : ℚ) ^ (z - 6)
    let mn : ℚ := center - width / 2
    let mx : ℚ := center + width / 2 - 1
    decide (mn ≤ x ∧ x ≤ mx ∧ mn ≤ y ∧ y ≤ mx)
  else false

/-- The integer zoom of tiler.ts lines 129-130:
`z = clamp(Math.round(geoScaleToZoom(scale, tileSize)), zoomRange[0],
zoomRange[1])`.  `2 * sPi / tileSize` equals `scale * 2π / tileSize`,
the argument of the log.  A non-positive tile size makes
`log2(tileSize)` (used at line 134 for `k`) NaN / -Infinity in
JavaScript, poisoning the computation, hence `none`. -/
def Tiler.zoomOf (t : Tiler) (p : Proj) : Option ℤ :=
  if 0 < t.tileSize then
    (roundLog2 (2 * p.sPi / t.tileSize)).map fun r => clamp r t.zoomRange.1 t.zoomRange.2
  else none

/-- The pixel-per-tile-grid-unit factor of tiler.ts lines 134-135:
`k = 2^(zFrac - z + log2 tileSize) = 2^zFrac * tileSize / 2^z
= (2 * sPi / tileSize) * tileSize / 2^z = 2 * sPi / 2^z` exactly. -/
def Tiler.kOf (p : Proj) (z : ℤ) : ℚ :=
  2 * p.sPi / (2 : ℚ) ^ z

/-- `maxTile = Math.pow(2, z) - 1` (tiler.ts line 132). -/
def Tiler.maxTileOf (z : ℤ) : ℚ :=
  (2 : ℚ) ^ z - 1

/-- The viewport's world-pixel minimum corner (tiler.ts lines 138-139):
`origin + dimensions[0]` where `origin = scale*π - translate`. -/
def Tiler.viewMinOf (p : Proj) : Vec2 :=
  (p.sPi - p.translate.1 + p.dimMin.1, p.sPi - p.translate.2 + p.dimMin.2)

/-- The viewport's world-pixel maximum corner (tiler.ts lines 138, 140). -/
def Tiler.viewMaxOf (p : Proj) : Vec2 :=
  (p.sPi - p.translate.1 + p.dimMax.1, p.sPi - p.translate.2 + p.dimMax.2)

/-- `viewExtent = new Extent(viewMin, viewMax)` (tiler.ts line 141). -/
def Tiler.viewExtentOf (p : Proj) : Extent :=
  Extent.make (Tiler.viewMinOf p) (Tiler.viewMaxOf p)

/-- The candidate column range (tiler.ts lines 148-151). -/
def Tiler.colsOf (t : Tiler) (p : Proj) (z : ℤ) : Option (List ℚ) :=
  range (clamp ((⌊(Tiler.viewMinOf p).1 / Tiler.kOf p z⌋ : ℚ) - t.margin) 0 (Tiler.maxTileOf z))
        (clamp ((⌊(Tiler.viewMaxOf p).1 / Tiler.kOf p z⌋ : ℚ) + t.margin) 0 (Tiler.maxTileOf z))

/-- The candidate row range (tiler.ts lines 152-155). -/
def Tiler.rowsOf (t : Tiler) (p : Proj) (z : ℤ) : Option (List ℚ) :=
  range (clamp ((⌊(Tiler.viewMinOf p).2 / Tiler.kOf p z⌋ : ℚ) - t.margin) 0 (Tiler.maxTileOf z))
        (clamp ((⌊(Tiler.viewMaxOf p).2 / Tiler.kOf p z⌋ : ℚ) + t.margin) 0 (Tiler.maxTileOf z))

/-- Construction of one tile descriptor (tiler.ts lines 163-182).
`invert` is the `Projection.invert` operation of the collaborator
(source not in the snapshot, no formula given by the spec); it is kept
as an explicit function parameter, applied to the centered world
projection exactly as at lines 173-174. -/
def Tiler.mkTileAt (invert : PState → Vec2 → Vec2) (t : Tiler) (p : Proj) (z : ℤ)
    (x y : ℚ) : Tile :=
  let tileMin : Vec2 := (x * t.tileSize, y * t.tileSize)
  let tileMax : Vec2 := ((x + 1) * t.tileSize, (y + 1) * t.tileSize)
  let tileExtent : Extent := Extent.make tileMin tileMax
  let isVisible : Bool := (Tiler.viewExtentOf p).intersects tileExtent
  let worldOrigin : ℚ := ((2 : ℚ) ^ z / 2) * t.tileSize
  let wp : PState := ⟨(worldOrigin, worldOrigin), worldOrigin⟩
  let wgs84Min : Vec2 := invert wp (tileMin.1, tileMax.2)
  let wgs84Max : Vec2 := invert wp (tileMax.1, tileMin.2)
  { id := tileId x y z
    xyz := (x, y, z)
    pxExtent := Extent.make tileMin tileMax
    wgs84Extent := Extent.make wgs84Min wgs84Max
    isVisible := isVisible }

/-- One iteration of the tile accumulation: `tiles.unshift(tile)` for a
visible tile, `tiles.push(tile)` for a margin tile (tiler.ts
lines 184-188). -/
def pushTile (acc : List Tile) (tile : Tile) : List Tile :=
  if tile.isVisible then tile :: acc else acc ++ [tile]

/-- The body of the double loop of tiler.ts lines 158-190 for one
`(row y, column x)` pair, including the skip-null-island `continue` at
line 164. -/
def Tiler.tileStep (invert : PState → Vec2 → Vec2) (t : Tiler) (p : Proj) (z : ℤ)
    (acc : List Tile) (y x : ℚ) : List Tile :=
  if t.skipNullIsland && Tiler.isNearNullIsland x y z then acc
  else pushTile acc (Tiler.mkTileAt invert t p z x y)

/-- `Tiler.getTiles(projection)` (tiler.ts lines 124-197).  Returns the
tile list (or `none` for a computation that throws in JavaScript)
together with the Tiler instance as it stands after the call — the
method reads but never assigns the configuration fields. -/
def Tiler.getTiles (invert : PState → Vec2 → Vec2) (t : Tiler) (p : Proj) :
    Option (List Tile) × Tiler :=
  ((t.zoomOf p).bind fun z =>
    (t.colsOf p z).bind fun cols =>
      (t.rowsOf p z).bind fun rows =>
        some (rows.foldl (fun acc y => cols.foldl (fun acc2 x =>
          Tiler.tileStep invert t p z acc2 y x) acc) []),
   t)

/-- The row-major enumeration order of the double loop: all `(y, x)`
pairs, rows ascending, columns ascending within a row. -/
def pairsOf (rows cols : List ℚ) : List (ℚ × ℚ) :=
  rows.flatMap fun y => cols.map fun x => (y, x)

/-- Whether the loop keeps (rather than skips) the pair `(y, x)`:
the negation of the `continue` condition at tiler.ts line 164. -/
def Tiler.keepPair (t : Tiler) (z : ℤ) (yx : ℚ × ℚ) : Bool :=
  !(t.skipNullIsland && Tiler.isNearNullIsland yx.2 yx.1 z)

/-- The tiles `getTiles` emits, listed in enumeration (row-major) order
instead of the visible-first order of the returned array. -/
def Tiler.enumTiles (invert : PState → Vec2 → Vec2) (t : Tiler) (p : Proj) :
    Option (List Tile) :=
  (t.zoomOf p).bind fun z =>
    (t.colsOf p z).bind fun cols =>
      (t.rowsOf p z).bind fun rows =>
        some (((pairsOf rows cols).filter (Tiler.keepPair t z)).map fun yx =>
          Tiler.mkTileAt invert t p z yx.2 yx.1)

/-- Reorders an enumeration-order tile list into the order the source
returns: visible tiles first in reverse enumeration order (each was
`unshift`ed), then margin tiles in enumeration order (each was
`push`ed). -/
def visFirst (es : List Tile) : List Tile :=
  (es.filter fun tl => tl.isVisible).reverse ++ es.filter fun tl => !tl.isVisible

/-- The getter branch of the `zoomRange` accessor (tiler.ts line 258). -/
def Tiler.zoomRangeGet (t : Tiler) : ℤ × ℤ :=
  t.zoomRange

/-- The setter branch of the `zoomRange` accessor (tiler.ts
lines 257-262): with `max` absent, both bounds are set to `min`. -/
def Tiler.zoomRangeSet (t : Tiler) (mn : ℤ) (mx : Option ℤ) : Tiler :=
  { t with zoomRange := (mn, mx.getD mn) }

/-- A concrete instantiation of the abstract `Projection.invert`
collaborator, used for witness instances (the identity on pixel
points; no claim constrains invert's output values). -/
def trivInvert : PState → Vec2 → Vec2 :=
  fun _ q => q

/-- The projection whose viewport exactly equals the whole world at
integer zoom `z` with 256-pixel tiles, as in the worked example of
tiler.ts lines 77-94: `new Projection(2^z*128, 2^z*128, 2^z*256/(2π))`
with dimensions `[[0,0],[2^z*256, 2^z*256]]` (so `sPi = scale*π =
2^z*128`). -/
def worldProj (z : ℕ) : Proj :=
  { translate := ((2 : ℚ) ^ z * 128, (2 : ℚ) ^ z * 128)
    dimMin := (0, 0)
    dimMax := ((2 : ℚ) ^ z * 256, (2 : ℚ) ^ z * 256)
    sPi := (2 : ℚ) ^ z * 128 }

/-! Structural lemmas about the loop of `getTiles`. -/

/-- Projections of a constructed tile. -/
theorem mkTileAt_xyz (invert : PState → Vec2 → Vec2) (t : Tiler) (p : Proj) (z : ℤ)
    (x y : ℚ) : (Tiler.mkTileAt invert t p z x y).xyz = (x, y, z) := rfl

theorem mkTileAt_id (invert : PState → Vec2 → Vec2) (t : Tiler) (p : Proj) (z : ℤ)
    (x y : ℚ) : (Tiler.mkTileAt invert t p z x y).id = tileId x y z := rfl

theorem mkTileAt_isVisible (invert : PState → Vec2 → Vec2) (t : Tiler) (p : Proj) (z : ℤ)
    (x y : ℚ) : (Tiler.mkTileAt invert t p z x y).isVisible =
      (Tiler.viewExtentOf p).intersects
        (Extent.make (x * t.tileSize, y * t.tileSize)
          ((x + 1) * t.tileSize, (y + 1) * t.tileSize)) := rfl

/-- Folding `pushTile` over an accumulator split as `visible ++ margin`
keeps the visible-first shape: newly visible tiles are consed in front,
margin tiles appended at the back. -/
theorem foldl_pushTile (es : List Tile) (V M : List Tile) :
    es.foldl pushTile (V ++ M) =
      (es.filter fun tl => tl.isVisible).reverse ++ V ++ M ++
        es.filter fun tl => !tl.isVisible := by
  induction es generalizing V M with
  | nil => simp
  | cons e es ih =>
    cases h : e.isVisible with
    | true =>
      have : pushTile (V ++ M) e = (e :: V) ++ M := by simp [pushTile, h]
      simp only [List.foldl_cons, this, ih, List.filter_cons, h]
      simp
    | false =>
      have : pushTile (V ++ M) e = V ++ (M ++ [e]) := by simp [pushTile, h]
      simp only [List.foldl_cons, this, ih, List.filter_cons, h]
      simp

/-- Folding `pushTile` from an empty array produces the visible-first
reordering of the enumeration order. -/
theorem foldl_pushTile_nil (es : List Tile) : es.foldl pushTile [] = visFirst es := by
  have := foldl_pushTile es [] []
  simpa [visFirst] using this

/-- The nested row/column `for` loops are a fold over the row-major pair
list. -/
theorem foldl_pairsOf {α : Type} (f : α → ℚ → ℚ → α) (rows cols : List ℚ) (init : α) :
    rows.foldl (fun acc y => cols.foldl (fun acc2 x => f acc2 y x) acc) init
      = (pairsOf rows cols).foldl (fun acc yx => f acc yx.1 yx.2) init := by
  induction rows generalizing init with
  | nil => simp [pairsOf]
  | cons y rows ih =>
    simp only [pairsOf, List.flatMap_cons, List.foldl_cons, List.foldl_append, List.foldl_map]
    simp only [pairsOf] at ih
    rw [ih]

/-- A fold whose body skips the pairs satisfying `d` equals the
`pushTile` fold over the kept, constructed tiles. -/
theorem foldl_skip {β : Type} (d : β → Bool) (g : β → Tile) (L : List β)
    (init : List Tile) :
    L.foldl (fun acc yx => if d yx then acc else pushTile acc (g yx)) init
      = ((L.filter fun yx => !d yx).map g).foldl pushTile init := by
  induction L generalizing init with
  | nil => simp
  | cons b L ih => cases h : d b <;> simp [h, ih]

/-- The tile list `getTiles` returns is the visible-first reordering of
the enumeration-order tile list. -/
theorem getTiles_fst_eq (invert : PState → Vec2 → Vec2) (t : Tiler) (p : Proj) :
    (Tiler.getTiles invert t p).1 = (Tiler.enumTiles invert t p).map visFirst := by
  unfold Tiler.getTiles Tiler.enumTiles
  cases t.zoomOf p with
  | none => rfl
  | some z =>
    simp only [Option.some_bind]
    cases t.colsOf p z with
    | none => rfl
    | some cols =>
      simp only [Option.some_bind]
      cases t.rowsOf p z with
      | none => rfl
      | some rows =>
        simp only [Option.some_bind, Option.map_some']
        refine congrArg some ?_
        rw [foldl_pairsOf (fun acc y x => Tiler.tileStep invert t p z acc y x)
          rows cols ([] : List Tile)]
        have h2 := foldl_skip
          (fun yx : ℚ × ℚ => t.skipNullIsland && Tiler.isNearNullIsland yx.2 yx.1 z)
          (fun yx : ℚ × ℚ => Tiler.mkTileAt invert t p z yx.2 yx.1)
          (pairsOf rows cols) ([] : List Tile)
        simp only [Tiler.tileStep]
        rw [h2, foldl_pushTile_nil]
        rfl

/-- The Tiler configuration in the returned pair is the instance the
call started with. -/
theorem getTiles_snd (invert : PState → Vec2 → Vec2) (t : Tiler) (p : Proj) :
    (Tiler.getTiles invert t p).2 = t := rfl

/-- Membership in the reordered list is membership in the enumeration. -/
theorem mem_visFirst {tl : Tile} {es : List Tile} : tl ∈ visFirst es ↔ tl ∈ es := by
  simp only [visFirst, List.mem_append, List.mem_reverse, List.mem_filter]
  cases h : tl.isVisible <;> simp [h]

/-- Lengths of the two filter partitions add up. -/
theorem length_filter_not_add (p : Tile → Bool) (es : List Tile) :
    (es.filter p).length + (es.filter fun tl => !p tl).length = es.length := by
  induction es with
  | nil => simp
  | cons e es ih => cases h : p e <;> simp only [List.filter_cons, h] <;> simp <;> omega

/-- Reordering preserves the number of tiles. -/
theorem length_visFirst (es : List Tile) : (visFirst es).length = es.length := by
  simp only [visFirst, List.length_append, List.length_reverse]
  exact length_filter_not_add _ es

/-- Membership in the row-major pair list. -/
theorem mem_pairsOf {q : ℚ × ℚ} {rows cols : List ℚ} :
    q ∈ pairsOf rows cols ↔ q.1 ∈ rows ∧ q.2 ∈ cols := by
  obtain ⟨y, x⟩ := q
  simp [pairsOf, List.mem_flatMap, List.mem_map, Prod.ext_iff, and_assoc]

/-- Size of the row-major pair list. -/
theorem length_pairsOf (rows cols : List ℚ) :
    (pairsOf rows cols).length = rows.length * cols.length := by
  induction rows with
  | nil => simp [pairsOf]
  | cons y rows ih =>
    simp only [pairsOf, List.flatMap_cons, List.length_append, List.length_map,
      List.length_cons]
    simp only [pairsOf] at ih
    rw [ih, Nat.succ_mul]
    ring

/-- The pair list is monotone (as a sublist) in both axis ranges. -/
theorem pairsOf_sublist {rows rows' cols cols' : List ℚ}
    (hr : rows.Sublist rows') (hc : cols.Sublist cols') :
    (pairsOf rows cols).Sublist (pairsOf rows' cols') := by
  induction hr with
  | slnil => simp [pairsOf]
  | cons y h ih =>
    refine ih.trans ?_
    simp only [pairsOf, List.flatMap_cons]
    exact List.sublist_append_right _ _
  | cons₂ y h ih =>
    simp only [pairsOf, List.flatMap_cons]
    exact List.Sublist.append (hc.map _) ih

/-! Arithmetic lemmas about `range`, `roundLog2` and `clamp`. -/

/-- Characterization of a successful `range` call: the produced list is
the arithmetic progression of step 1 whose length is the (integral,
non-negative) value `1 + stop - start`. -/
theorem range_eq_some {a b : ℚ} {L : List ℚ} (h : range a b = some L) :
    ∃ n : ℕ, (n : ℚ) = 1 + b - a ∧ L = (List.range n).map fun v : ℕ => a + (v : ℚ) := by
  simp only [range] at h
  split at h
  case isTrue hc =>
    obtain ⟨h0, hint, h32⟩ := hc
    refine ⟨⌊1 + b - a⌋.toNat, ?_, (Option.some_inj.mp h).symm⟩
    have hn : ((⌊1 + b - a⌋.toNat : ℕ) : ℚ) = ((⌊1 + b - a⌋ : ℤ) : ℚ) := by
      norm_cast
      exact Int.toNat_of_nonneg (Int.floor_nonneg.mpr h0)
    rw [hn, hint]
  case isFalse => exact absurd h (by simp)

/-- `range` on integer bounds with a valid length returns the integer
progression. -/
theorem range_int_eq (A B : ℤ) (h0 : 0 ≤ 1 + B - A) (h32 : 1 + B - A < 2 ^ 32) :
    range (A : ℚ) (B : ℚ)
      = some ((List.range (1 + B - A).toNat).map fun v : ℕ => (A : ℚ) + (v : ℚ)) := by
  have hlen : (1 : ℚ) + (B : ℚ) - (A : ℚ) = ((1 + B - A : ℤ) : ℚ) := by push_cast; ring
  simp only [range, hlen, Int.floor_intCast]
  rw [if_pos]
  exact ⟨by exact_mod_cast h0, by trivial, by exact_mod_cast h32⟩

/-- `range` fails (JavaScript throws) when the length is negative. -/
theorem range_eq_none {a b : ℚ} (h : 1 + b - a < 0) : range a b = none := by
  simp only [range]
  rw [if_neg]
  intro hc
  exact absurd hc.1 (not_le.mpr h)

/-- `roundLog2` at an exact power of two. -/
theorem roundLog2_pow2 (n : ℤ) : roundLog2 ((2 : ℚ) ^ n) = some n := by
  have hpos : (0 : ℚ) < (2 : ℚ) ^ n := zpow_pos (by norm_num) n
  have hlog : Int.log 2 ((2 : ℚ) ^ n) = n := by
    have h : Int.log 2 (((2 : ℕ) : ℚ) ^ n) = n := Int.log_zpow Nat.one_lt_two n
    simpa using h
  have hsq : ((2 : ℚ) ^ n) ^ 2 = (2 : ℚ) ^ (n + n) := by
    rw [sq, ← zpow_add₀ (two_ne_zero : (2 : ℚ) ≠ 0) n n]
  unfold roundLog2
  rw [if_pos hpos, hlog, hsq, if_neg]
  rw [zpow_le_zpow_iff_right₀ one_lt_two]
  omega

/-- The rounded log is at least any exponent whose power bounds the
argument from below. -/
theorem le_roundLog2 {q : ℚ} {m r : ℤ} (hq : (2 : ℚ) ^ m ≤ q) (h : roundLog2 q = some r) :
    m ≤ r := by
  have hqpos : 0 < q := lt_of_lt_of_le (zpow_pos (by norm_num) m) hq
  have hlog : m ≤ Int.log 2 q := by
    have h2 : ((2 : ℕ) : ℚ) ^ m ≤ q := by simpa using hq
    exact (Int.zpow_le_iff_le_log Nat.one_lt_two hqpos).mp h2
  unfold roundLog2 at h
  rw [if_pos hqpos] at h
  have hr := Option.some_inj.mp h
  split at hr <;> omega

/-- `clamp` is monotone in its first argument. -/
theorem clamp_le_clamp {α : Type} [LinearOrder α] {a b : α} (mn mx : α) (h : a ≤ b) :
    clamp a mn mx ≤ clamp b mn mx :=
  max_le_max le_rfl (min_le_min h le_rfl)

/-- `clamp` over `ℚ` restricted to integer inputs is the integer
`clamp`. -/
theorem clamp_intCast (x lo hi : ℤ) :
    clamp (x : ℚ) (lo : ℚ) (hi : ℚ) = ((clamp x lo hi : ℤ) : ℚ) := by
  unfold clamp
  push_cast
  rfl

/-- The lower configuration bound always bounds a clamp from below. -/
theorem le_clamp {α : Type} [LinearOrder α] (num mn mx : α) : mn ≤ clamp num mn mx :=
  le_max_left _ _

/-- A clamp is bounded by its upper bound when the bounds are ordered. -/
theorem clamp_le {α : Type} [LinearOrder α] {mn mx : α} (num : α) (h : mn ≤ mx) :
    clamp num mn mx ≤ mx :=
  max_le h (min_le_right _ _)

/-! Evaluation of `getTiles` on whole-world projections. -/

/-- A default-configured Tiler except for an integer margin `m`
(`marginTiler 0` is the default configuration). -/
def marginTiler (m : ℕ) : Tiler :=
  { margin := (m : ℚ) }

/-- The list `[0, 1, ..., n-1]` over `ℚ`. -/
def iota (n : ℕ) : List ℚ :=
  (List.range n).map fun v : ℕ => (v : ℚ)

theorem mem_iota {x : ℚ} {n : ℕ} : x ∈ iota n ↔ ∃ v : ℕ, v < n ∧ x = (v : ℚ) := by
  unfold iota
  simp only [List.mem_map, List.mem_range]
  constructor
  · rintro ⟨v, hv, rfl⟩
    exact ⟨v, hv, rfl⟩
  · rintro ⟨v, hv, rfl⟩
    exact ⟨v, hv, rfl⟩

theorem length_iota (n : ℕ) : (iota n).length = n := by
  simp [iota]

/-- The integer zoom computed for the whole-world projection: the
fractional zoom is exactly `z`, rounded to `z` and clamped into
`[0, 24]`. -/
theorem zoomOf_worldProj (m z : ℕ) :
    (marginTiler m).zoomOf (worldProj z) = some ((min z 24 : ℕ) : ℤ) := by
  have hq : 2 * (worldProj z).sPi / (marginTiler m).tileSize = (2 : ℚ) ^ ((z : ℕ) : ℤ) := by
    rw [zpow_natCast]
    show 2 * ((2 : ℚ) ^ z * 128) / 256 = (2 : ℚ) ^ z
    ring
  unfold Tiler.zoomOf
  rw [if_pos (show (0 : ℚ) < (marginTiler m).tileSize by norm_num [marginTiler])]
  rw [hq, roundLog2_pow2]
  simp only [Option.map_some']
  congr 1
  show clamp ((z : ℕ) : ℤ) 0 24 = ((min z 24 : ℕ) : ℤ)
  have h1 : ((min z 24 : ℕ) : ℤ) = min ((z : ℕ) : ℤ) 24 := by push_cast; rfl
  rw [h1]
  unfold clamp
  exact max_eq_right (le_min (Int.natCast_nonneg z) (by norm_num))

/-- Clamping the lower candidate bound `0 - margin` lands on 0. -/
theorem clamp_lo_eq (m : ℕ) (M : ℚ) (hM : 0 ≤ M) : clamp ((0 : ℚ) - m) 0 M = 0 := by
  have hm : (0 : ℚ) ≤ (m : ℚ) := Nat.cast_nonneg m
  unfold clamp
  rw [min_eq_left (by linarith), max_eq_left (by linarith)]

/-- Clamping the upper candidate bound `(M + 1) + margin` lands on `M`. -/
theorem clamp_hi_eq (m : ℕ) (M : ℚ) (hM : 0 ≤ M) : clamp (M + 1 + m) 0 M = M := by
  have hm : (0 : ℚ) ≤ (m : ℚ) := Nat.cast_nonneg m
  unfold clamp
  rw [min_eq_right (by linarith), max_eq_right hM]

/-- The tile-index range `[0, 2^w - 1]` materializes as `[0, ..., 2^w-1]`
when `w ≤ 31` (so the array length `2^w` stays below `2^32`). -/
theorem range_zero_pow (w : ℕ) (h31 : w ≤ 31) :
    range 0 ((2 : ℚ) ^ w - 1) = some (iota (2 ^ w)) := by
  have hp : (0 : ℤ) < 2 ^ w := by positivity
  have h32 : (1 : ℤ) + ((2 : ℤ) ^ w - 1) - 0 < 2 ^ 32 := by
    have : (2 : ℤ) ^ w < 2 ^ 32 := pow_lt_pow_right₀ (by norm_num) (by omega)
    omega
  have h0 : (0 : ℤ) ≤ 1 + ((2 : ℤ) ^ w - 1) - 0 := by omega
  have h := range_int_eq 0 ((2 : ℤ) ^ w - 1) h0 h32
  have e1 : ((0 : ℤ) : ℚ) = (0 : ℚ) := Int.cast_zero
  have e2 : (((2 : ℤ) ^ w - 1 : ℤ) : ℚ) = (2 : ℚ) ^ w - 1 := by push_cast; ring
  have e3 : ((1 : ℤ) + ((2 : ℤ) ^ w - 1) - 0).toNat = 2 ^ w := by
    have h4 : (1 : ℤ) + ((2 : ℤ) ^ w - 1) - 0 = ((2 ^ w : ℕ) : ℤ) := by push_cast; ring
    rw [h4, Int.toNat_natCast]
  rw [e1, e2, e3] at h
  rw [h]
  congr 1
  unfold iota
  exact List.map_congr_left fun a _ => by norm_num

/-- The candidate columns for the whole-world projection at clamped zoom
`w` are all of `[0, 2^w - 1]`, for any margin. -/
theorem colsOf_worldProj (m z w : ℕ) (h31 : w ≤ 31) :
    (marginTiler m).colsOf (worldProj z) ((w : ℕ) : ℤ) = some (iota (2 ^ w)) := by
  have h1le : (1 : ℚ) ≤ (2 : ℚ) ^ w := by
    calc (1 : ℚ) = (2 : ℚ) ^ (0 : ℕ) := by norm_num
    _ ≤ (2 : ℚ) ^ w := pow_le_pow_right₀ (by norm_num) (Nat.zero_le w)
  have hfloor0 :
      ⌊(Tiler.viewMinOf (worldProj z)).1 / Tiler.kOf (worldProj z) ((w : ℕ) : ℤ)⌋ = 0 := by
    have hv : (Tiler.viewMinOf (worldProj z)).1 = 0 := by
      show (2 : ℚ) ^ z * 128 - (2 : ℚ) ^ z * 128 + 0 = 0
      ring
    rw [hv, zero_div, Int.floor_zero]
  have hfloorMax :
      ⌊(Tiler.viewMaxOf (worldProj z)).1 / Tiler.kOf (worldProj z) ((w : ℕ) : ℤ)⌋
        = (2 : ℤ) ^ w := by
    have hv : (Tiler.viewMaxOf (worldProj z)).1 = (2 : ℚ) ^ z * 256 := by
      show (2 : ℚ) ^ z * 128 - (2 : ℚ) ^ z * 128 + (2 : ℚ) ^ z * 256 = (2 : ℚ) ^ z * 256
      ring
    have hk : Tiler.kOf (worldProj z) ((w : ℕ) : ℤ) = (2 : ℚ) ^ z * 256 / (2 : ℚ) ^ w := by
      unfold Tiler.kOf
      rw [zpow_natCast]
      show 2 * ((2 : ℚ) ^ z * 128) / (2 : ℚ) ^ w = (2 : ℚ) ^ z * 256 / (2 : ℚ) ^ w
      ring
    rw [hv, hk]
    have h2 : (2 : ℚ) ^ z * 256 / ((2 : ℚ) ^ z * 256 / (2 : ℚ) ^ w) = (2 : ℚ) ^ w := by
      have hz2 : ((2 : ℚ) ^ z : ℚ) ≠ 0 := by positivity
      have hw2 : ((2 : ℚ) ^ w : ℚ) ≠ 0 := by positivity
      field_simp
    rw [h2, show (2 : ℚ) ^ w = (((2 : ℤ) ^ w : ℤ) : ℚ) from by push_cast; rfl]
    exact Int.floor_intCast _
  unfold Tiler.colsOf
  rw [hfloor0, hfloorMax]
  have hmax : Tiler.maxTileOf ((w : ℕ) : ℤ) = (2 : ℚ) ^ w - 1 := by
    unfold Tiler.maxTileOf
    rw [zpow_natCast]
  rw [hmax, Int.cast_zero,
    show (((2 : ℤ) ^ w : ℤ) : ℚ) = (2 : ℚ) ^ w from by push_cast; rfl,
    show (marginTiler m).margin = (m : ℚ) from rfl,
    clamp_lo_eq m _ (by linarith),
    show (2 : ℚ) ^ w + (m : ℚ) = ((2 : ℚ) ^ w - 1) + 1 + m from by ring,
    clamp_hi_eq m _ (by linarith)]
  exact range_zero_pow w h31

/-- Same computation for the candidate rows. -/
theorem rowsOf_worldProj (m z w : ℕ) (h31 : w ≤ 31) :
    (marginTiler m).rowsOf (worldProj z) ((w : ℕ) : ℤ) = some (iota (2 ^ w)) :=
  colsOf_worldProj m z w h31

/-- The viewport extent of the whole-world projection: `[0, 2^z*256]` on
both axes. -/
theorem viewExtent_worldProj (z : ℕ) :
    Tiler.viewExtentOf (worldProj z)
      = ⟨(0, 0), ((2 : ℚ) ^ z * 256, (2 : ℚ) ^ z * 256)⟩ := by
  have hS : (0 : ℚ) ≤ (2 : ℚ) ^ z * 256 := by positivity
  have h1 : (2 : ℚ) ^ z * 128 - (2 : ℚ) ^ z * 128 + 0 = 0 := by ring
  have h2 : (2 : ℚ) ^ z * 128 - (2 : ℚ) ^ z * 128 + (2 : ℚ) ^ z * 256
      = (2 : ℚ) ^ z * 256 := by ring
  show Extent.make
      ((2 : ℚ) ^ z * 128 - (2 : ℚ) ^ z * 128 + 0, (2 : ℚ) ^ z * 128 - (2 : ℚ) ^ z * 128 + 0)
      ((2 : ℚ) ^ z * 128 - (2 : ℚ) ^ z * 128 + (2 : ℚ) ^ z * 256,
        (2 : ℚ) ^ z * 128 - (2 : ℚ) ^ z * 128 + (2 : ℚ) ^ z * 256) = _
  rw [h1, h2]
  unfold Extent.make
  rw [min_eq_left hS, max_eq_right hS]

/-- Every candidate tile of the whole-world projection is visible:
its pixel extent meets the world-sized viewport extent. -/
theorem visible_worldProj (invert : PState → Vec2 → Vec2) (m z w : ℕ) (hwz : w ≤ z)
    {x y : ℚ} (hx : x ∈ iota (2 ^ w)) (hy : y ∈ iota (2 ^ w)) :
    (Tiler.mkTileAt invert (marginTiler m) (worldProj z) ((w : ℕ) : ℤ) x y).isVisible
      = true := by
  obtain ⟨i, hi, rfl⟩ := mem_iota.mp hx
  obtain ⟨j, hj, rfl⟩ := mem_iota.mp hy
  have hpow : ((2 ^ w : ℕ) : ℚ) ≤ (2 : ℚ) ^ z := by
    push_cast
    exact pow_le_pow_right₀ (by norm_num) hwz
  have hiq : (i : ℚ) ≤ (2 : ℚ) ^ z - 1 := by
    have h1 : (i : ℚ) + 1 ≤ ((2 ^ w : ℕ) : ℚ) := by exact_mod_cast hi
    linarith
  have hjq : (j : ℚ) ≤ (2 : ℚ) ^ z - 1 := by
    have h1 : (j : ℚ) + 1 ≤ ((2 ^ w : ℕ) : ℚ) := by exact_mod_cast hj
    linarith
  have hi0 : (0 : ℚ) ≤ (i : ℚ) := Nat.cast_nonneg i
  have hj0 : (0 : ℚ) ≤ (j : ℚ) := Nat.cast_nonneg j
  rw [mkTileAt_isVisible, viewExtent_worldProj]
  show Extent.intersects ⟨(0, 0), ((2 : ℚ) ^ z * 256, (2 : ℚ) ^ z * 256)⟩
    (Extent.make ((i : ℚ) * 256, (j : ℚ) * 256)
      (((i : ℚ) + 1) * 256, ((j : ℚ) + 1) * 256)) = true
  simp only [Extent.intersects, Extent.make, decide_eq_true_eq]
  refine ⟨?_, ?_, ?_, ?_⟩
  · exact le_max_of_le_left (by positivity)
  · exact (min_le_left _ _).trans (by linarith)
  · exact le_max_of_le_left (by positivity)
  · exact (min_le_left _ _).trans (by linarith)

/-- The enumeration-order tile list of the whole-world projection: every
pair in `[0, 2^w - 1]^2` for `w = min z 24`, no pair skipped. -/
theorem enumTiles_worldProj (invert : PState → Vec2 → Vec2) (m z : ℕ) :
    Tiler.enumTiles invert (marginTiler m) (worldProj z)
      = some ((pairsOf (iota (2 ^ min z 24)) (iota (2 ^ min z 24))).map fun yx =>
          Tiler.mkTileAt invert (marginTiler m) (worldProj z) ((min z 24 : ℕ) : ℤ)
            yx.2 yx.1) := by
  unfold Tiler.enumTiles
  rw [zoomOf_worldProj]
  simp only [Option.some_bind]
  rw [colsOf_worldProj m z (min z 24) (by omega)]
  simp only [Option.some_bind]
  rw [rowsOf_worldProj m z (min z 24) (by omega)]
  simp only [Option.some_bind]
  have hkeep : ∀ a ∈ pairsOf (iota (2 ^ min z 24)) (iota (2 ^ min z 24)),
      Tiler.keepPair (marginTiler m) ((min z 24 : ℕ) : ℤ) a = true := by
    intro a _
    simp [Tiler.keepPair, marginTiler]
  rw [List.filter_eq_self.mpr hkeep]

/-- Full evaluation of `getTiles` on the whole-world projection at any
integer zoom `z` and margin `m`: the call succeeds, produces one tile per
pair in `[0, 2^w - 1]^2` for the clamped zoom `w = min z 24`, every tile
is visible, and the pairs are covered exactly. -/
theorem getTiles_worldProj (invert : PState → Vec2 → Vec2) (m z : ℕ) :
    ∃ ts, (Tiler.getTiles invert (marginTiler m) (worldProj z)).1 = some ts ∧
      ts.length = 2 ^ min z 24 * 2 ^ min z 24 ∧
      (∀ tl ∈ ts, tl.isVisible = true) ∧
      (∀ tl ∈ ts, ∃ i j : ℕ, i < 2 ^ min z 24 ∧ j < 2 ^ min z 24 ∧
        tl.xyz = ((i : ℚ), (j : ℚ), ((min z 24 : ℕ) : ℤ))) ∧
      (∀ i j : ℕ, i < 2 ^ min z 24 → j < 2 ^ min z 24 →
        ∃ tl ∈ ts, tl.xyz = ((i : ℚ), (j : ℚ), ((min z 24 : ℕ) : ℤ)) ∧
          tl.id = tileId (i : ℚ) (j : ℚ) ((min z 24 : ℕ) : ℤ)) := by
  refine ⟨visFirst ((pairsOf (iota (2 ^ min z 24)) (iota (2 ^ min z 24))).map fun yx =>
    Tiler.mkTileAt invert (marginTiler m) (worldProj z) ((min z 24 : ℕ) : ℤ) yx.2 yx.1),
    ?_, ?_, ?_, ?_, ?_⟩
  · rw [getTiles_fst_eq, enumTiles_worldProj]
    rfl
  · rw [length_visFirst, List.length_map, length_pairsOf, length_iota]
  · intro tl htl
    rw [mem_visFirst] at htl
    obtain ⟨yx, hyx, rfl⟩ := List.mem_map.mp htl
    exact visible_worldProj invert m z (min z 24) (by omega)
      (mem_pairsOf.mp hyx).2 (mem_pairsOf.mp hyx).1
  · intro tl htl
    rw [mem_visFirst] at htl
    obtain ⟨yx, hyx, rfl⟩ := List.mem_map.mp htl
    obtain ⟨hy, hx⟩ := mem_pairsOf.mp hyx
    obtain ⟨i, hi, hxi⟩ := mem_iota.mp hx
    obtain ⟨j, hj, hyj⟩ := mem_iota.mp hy
    exact ⟨i, j, hi, hj, by rw [mkTileAt_xyz, hxi, hyj]⟩
  · intro i j hi hj
    refine ⟨Tiler.mkTileAt invert (marginTiler m) (worldProj z) ((min z 24 : ℕ) : ℤ)
      (i : ℚ) (j : ℚ), ?_, ?_, ?_⟩
    · rw [mem_visFirst]
      exact List.mem_map.mpr ⟨((j : ℚ), (i : ℚ)),
        mem_pairsOf.mpr ⟨mem_iota.mpr ⟨j, hj, rfl⟩, mem_iota.mpr ⟨i, hi, rfl⟩⟩, rfl⟩
    · rw [mkTileAt_xyz]
    · rw [mkTileAt_id]

theorem iota_two : iota 2 = [0, 1] := by
  simp [iota, List.range_succ]

theorem pairs_two : pairsOf [(0 : ℚ), 1] [(0 : ℚ), 1] = [(0, 0), (0, 1), (1, 0), (1, 1)] := by
  simp [pairsOf]

/-- The worked example of tiler.ts lines 77-94: the whole world at zoom 1
yields the four tiles, visible ones unshifted so the returned order is
the reverse of the row-major enumeration. -/
theorem getTiles_world1 (invert : PState → Vec2 → Vec2) (m : ℕ) :
    (Tiler.getTiles invert (marginTiler m) (worldProj 1)).1 = some
      [Tiler.mkTileAt invert (marginTiler m) (worldProj 1) 1 1 1,
       Tiler.mkTileAt invert (marginTiler m) (worldProj 1) 1 0 1,
       Tiler.mkTileAt invert (marginTiler m) (worldProj 1) 1 1 0,
       Tiler.mkTileAt invert (marginTiler m) (worldProj 1) 1 0 0] := by
  have hv : ∀ x y : ℚ, x ∈ iota 2 → y ∈ iota 2 →
      (Tiler.mkTileAt invert (marginTiler m) (worldProj 1) 1 x y).isVisible = true := by
    intro x y hx hy
    have h := visible_worldProj invert m 1 1 le_rfl (by simpa using hx) (by simpa using hy)
    simpa using h
  have hmem0 : (0 : ℚ) ∈ iota 2 := by rw [iota_two]; simp
  have hmem1 : (1 : ℚ) ∈ iota 2 := by rw [iota_two]; simp
  have h00 := hv 0 0 hmem0 hmem0
  have h10 := hv 1 0 hmem1 hmem0
  have h01 := hv 0 1 hmem0 hmem1
  have h11 := hv 1 1 hmem1 hmem1
  rw [getTiles_fst_eq, enumTiles_worldProj]
  have hone : ((min 1 24 : ℕ) : ℤ) = (1 : ℤ) := by norm_num
  have htwo : (2 : ℕ) ^ min 1 24 = 2 := by norm_num
  rw [hone, htwo, iota_two, pairs_two]
  simp only [List.map_cons, List.map_nil, Option.map_some']
  congr 1
  simp [visFirst, h00, h10, h01, h11]

/-! Claim theorems. -/

/-- C5: `isNearNullIsland(x, y, z)` is false for every `x, y` when
`z < 7`; for `z ≥ 7` it is true iff both `x` and `y` lie in the
inclusive interval `[2^(z-1) - 2^(z-7), 2^(z-1) + 2^(z-7) - 1]`; at
`z = 6` it is false for all `x, y`; at `z = 7` it is true exactly on
`(63,63), (63,64), (64,63), (64,64)` and false at `(63,65)`; and
`isNearNullIsland(127, 127, 8)` is true. -/
theorem claim_C5 :
    (∀ (x y : ℚ) (z : ℤ), z < 7 → Tiler.isNearNullIsland x y z = false) ∧
    (∀ (x y : ℚ) (z : ℤ), 7 ≤ z →
      (Tiler.isNearNullIsland x y z = true ↔
        ((2 : ℚ) ^ (z - 1) - (2 : ℚ) ^ (z - 7) ≤ x ∧
         x ≤ (2 : ℚ) ^ (z - 1) + (2 : ℚ) ^ (z - 7) - 1 ∧
         (2 : ℚ) ^ (z - 1) - (2 : ℚ) ^ (z - 7) ≤ y ∧
         y ≤ (2 : ℚ) ^ (z - 1) + (2 : ℚ) ^ (z - 7) - 1))) ∧
    (∀ x y : ℚ, Tiler.isNearNullIsland x y 6 = false) ∧
    Tiler.isNearNullIsland 63 63 7 = true ∧
    Tiler.isNearNullIsland 63 64 7 = true ∧
    Tiler.isNearNullIsland 64 63 7 = true ∧
    Tiler.isNearNullIsland 64 64 7 = true ∧
    Tiler.isNearNullIsland 63 65 7 = false ∧
    Tiler.isNearNullIsland 127 127 8 = true := by
  have hw : ∀ z : ℤ, (2 : ℚ) ^ (z - 6) / 2 = (2 : ℚ) ^ (z - 7) := by
    intro z
    have h : (2 : ℚ) ^ (z - 6) = (2 : ℚ) ^ (z - 7) * 2 := by
      rw [show z - 6 = z - 7 + 1 from by ring,
        zpow_add₀ (two_ne_zero : (2 : ℚ) ≠ 0), zpow_one]
    rw [h]
    ring
  have hgen : ∀ (x y : ℚ) (z : ℤ), 7 ≤ z →
      (Tiler.isNearNullIsland x y z = true ↔
        ((2 : ℚ) ^ (z - 1) - (2 : ℚ) ^ (z - 7) ≤ x ∧
         x ≤ (2 : ℚ) ^ (z - 1) + (2 : ℚ) ^ (z - 7) - 1 ∧
         (2 : ℚ) ^ (z - 1) - (2 : ℚ) ^ (z - 7) ≤ y ∧
         y ≤ (2 : ℚ) ^ (z - 1) + (2 : ℚ) ^ (z - 7) - 1)) := by
    intro x y z hz
    unfold Tiler.isNearNullIsland
    rw [if_pos hz]
    dsimp only
    rw [hw z, decide_eq_true_eq]
  refine ⟨?_, hgen, ?_, ?_, ?_, ?_, ?_, ?_, ?_⟩
  · intro x y z hz
    unfold Tiler.isNearNullIsland
    rw [if_neg (by omega)]
  · intro x y
    unfold Tiler.isNearNullIsland
    rw [if_neg (by omega)]
  · rw [hgen 63 63 7 (by norm_num)]
    norm_num
  · rw [hgen 63 64 7 (by norm_num)]
    norm_num
  · rw [hgen 64 63 7 (by norm_num)]
    norm_num
  · rw [hgen 64 64 7 (by norm_num)]
    norm_num
  · rw [Bool.eq_false_iff]
    intro hc
    rw [hgen 63 65 7 (by norm_num)] at hc
    norm_num at hc
  · rw [hgen 127 127 8 (by norm_num)]
    norm_num

/-- Witness for C5 at the concrete input `(0, 0, 0)`. -/
theorem claim_C5_witness : Tiler.isNearNullIsland 0 0 0 = false :=
  claim_C5.1 0 0 0 (by norm_num)

/-- C9: setting the zoom range with a single value `min` (and no `max`)
sets both bounds to `min`, so the getter returns `(min, min)`. -/
theorem claim_C9 (t : Tiler) (mn : ℤ) :
    (t.zoomRangeSet mn none).zoomRangeGet = (mn, mn) := rfl

/-- C10: `getTiles` never mutates the Tiler's configuration: tile size,
zoom range, margin and skip-null-island are unchanged by the call. -/
theorem claim_C10 (invert : PState → Vec2 → Vec2) (t : Tiler) (p : Proj) :
    (Tiler.getTiles invert t p).2.tileSize = t.tileSize ∧
    (Tiler.getTiles invert t p).2.zoomRange = t.zoomRange ∧
    (Tiler.getTiles invert t p).2.margin = t.margin ∧
    (Tiler.getTiles invert t p).2.skipNullIsland = t.skipNullIsland :=
  ⟨rfl, rfl, rfl, rfl⟩

/-- C8: `getTiles` is deterministic — a second call on the Tiler
instance returned by a first call (same configuration, same projection)
produces the identical tile sequence. -/
theorem claim_C8 (invert : PState → Vec2 → Vec2) (t : Tiler) (p : Proj) :
    (Tiler.getTiles invert (Tiler.getTiles invert t p).2 p).1
      = (Tiler.getTiles invert t p).1 := rfl

/-- C4: the returned list is exactly the visible-first reordering of the
row-major enumeration: all visible descriptors precede all non-visible
ones, the visible ones in reverse enumeration order and the margin ones
in forward enumeration order. -/
theorem claim_C4 (invert : PState → Vec2 → Vec2) (t : Tiler) (p : Proj) :
    (Tiler.getTiles invert t p).1 = (Tiler.enumTiles invert t p).map visFirst :=
  getTiles_fst_eq invert t p

/-- Taking a sub-filter commutes with the visible-first reordering. -/
theorem visFirst_filter (g : Tile → Bool) (es : List Tile) :
    (visFirst es).filter g = visFirst (es.filter g) := by
  unfold visFirst
  rw [List.filter_append]
  congr 1
  · rw [List.filter_reverse, List.filter_filter, List.filter_filter]
    congr 1
    exact List.filter_congr fun a _ => by rw [Bool.and_comm]
  · rw [List.filter_filter, List.filter_filter]
    exact List.filter_congr fun a _ => by rw [Bool.and_comm]

/-- C6: with skip-null-island enabled, `getTiles` returns exactly the
tiles of the disabled run whose coordinates are not near Null Island —
skipped tiles are absent entirely (not merely marked invisible), and
with the flag disabled no tile is omitted on this basis. -/
theorem claim_C6 (invert : PState → Vec2 → Vec2) (t : Tiler) (p : Proj) :
    (Tiler.getTiles invert { t with skipNullIsland := true } p).1
      = ((Tiler.getTiles invert { t with skipNullIsland := false } p).1).map
          (List.filter fun tl => !Tiler.isNearNullIsland tl.xyz.1 tl.xyz.2.1 tl.xyz.2.2) := by
  rw [getTiles_fst_eq, getTiles_fst_eq]
  unfold Tiler.enumTiles
  have hz0 : Tiler.zoomOf { t with skipNullIsland := true } p
      = Tiler.zoomOf { t with skipNullIsland := false } p := rfl
  rw [hz0]
  cases Tiler.zoomOf { t with skipNullIsland := false } p with
  | none => rfl
  | some z =>
    simp only [Option.some_bind]
    have hc0 : Tiler.colsOf { t with skipNullIsland := true } p z
        = Tiler.colsOf { t with skipNullIsland := false } p z := rfl
    rw [hc0]
    cases Tiler.colsOf { t with skipNullIsland := false } p z with
    | none => rfl
    | some cols =>
      simp only [Option.some_bind]
      have hr0 : Tiler.rowsOf { t with skipNullIsland := true } p z
          = Tiler.rowsOf { t with skipNullIsland := false } p z := rfl
      rw [hr0]
      cases Tiler.rowsOf { t with skipNullIsland := false } p z with
      | none => rfl
      | some rows =>
        simp only [Option.some_bind, Option.map_some']
        refine congrArg some ?_
        have hkeep0 : ∀ a ∈ pairsOf rows cols,
            Tiler.keepPair { t with skipNullIsland := false } z a = true := by
          intro a _
          simp [Tiler.keepPair]
        have hmk : (fun yx : ℚ × ℚ =>
            Tiler.mkTileAt invert { t with skipNullIsland := true } p z yx.2 yx.1)
            = fun yx : ℚ × ℚ =>
              Tiler.mkTileAt invert { t with skipNullIsland := false } p z yx.2 yx.1 := rfl
    
        rw [visFirst_filter, List.filter_eq_self.mpr hkeep0, List.filter_map, hmk]
        rfl

theorem marginTiler_zero : marginTiler 0 = ({} : Tiler) := by
  norm_num [marginTiler]

theorem tileId_one_one : tileId 1 1 1 = "1,1,1" := by decide

theorem tileId_zero_one : tileId 0 1 1 = "0,1,1" := by decide

theorem tileId_one_zero : tileId 1 0 1 = "1,0,1" := by decide

theorem tileId_zero_zero : tileId 0 0 1 = "0,0,1" := by decide

/-- C1 (amended: `z` must lie within the default zoom range, i.e.
`z ≤ 24`): for the default configuration and a projection whose viewport
exactly equals the whole world at integer zoom `z ≤ 24`, `getTiles`
returns exactly `4^z` tiles, all visible, whose `x, y` indices cover
`[0, 2^z - 1]` in both axes; in the concrete `z = 1` instance the four
tiles have ids "0,0,1", "1,0,1", "0,1,1", "1,1,1". -/
theorem claim_C1_amended (invert : PState → Vec2 → Vec2) (z : ℕ) (hz : z ≤ 24) :
    ∃ ts, (Tiler.getTiles invert ({} : Tiler) (worldProj z)).1 = some ts ∧
      ts.length = 4 ^ z ∧
      (∀ tl ∈ ts, tl.isVisible = true) ∧
      (∀ tl ∈ ts, ∃ i j : ℕ, i < 2 ^ z ∧ j < 2 ^ z ∧
        tl.xyz = ((i : ℚ), (j : ℚ), (z : ℤ))) ∧
      (∀ i j : ℕ, i < 2 ^ z → j < 2 ^ z →
        ∃ tl ∈ ts, tl.xyz = ((i : ℚ), (j : ℚ), (z : ℤ))) ∧
      (z = 1 → (ts.map fun tl => tl.id).Perm ["0,0,1", "1,0,1", "0,1,1", "1,1,1"]) := by
  obtain ⟨ts, h1, h2, h3, h4, h5⟩ := getTiles_worldProj invert 0 z
  rw [marginTiler_zero] at h1
  have hmin : min z 24 = z := min_eq_left hz
  rw [hmin] at h2 h4 h5
  refine ⟨ts, h1, ?_, h3, h4, ?_, ?_⟩
  · rw [h2, show (4 : ℕ) = 2 * 2 from rfl, mul_pow]
  · intro i j hi hj
    obtain ⟨tl, htl, hxyz, _⟩ := h5 i j hi hj
    exact ⟨tl, htl, hxyz⟩
  · intro hz1
    subst hz1
    have hL := getTiles_world1 invert 0
    rw [marginTiler_zero, h1] at hL
    rw [Option.some_inj.mp hL]
    simp only [List.map_cons, List.map_nil, mkTileAt_id]
    rw [tileId_one_one, tileId_zero_one, tileId_one_zero, tileId_zero_zero]
    decide

/-- Counterexample to C1 as frozen: for the whole-world projection at
integer zoom 25 (above the default maximum zoom 24), `getTiles` returns
`2^48` tiles, not `4^25 = 2^50`. -/
theorem claim_C1_counterexample :
    ∃ ts, (Tiler.getTiles trivInvert ({} : Tiler) (worldProj 25)).1 = some ts ∧
      ts.length ≠ 4 ^ 25 := by
  obtain ⟨ts, h1, h2, _⟩ := getTiles_worldProj trivInvert 0 25
  rw [marginTiler_zero] at h1
  refine ⟨ts, h1, ?_⟩
  rw [h2]
  norm_num

/-- Witness for C1 (amended) at the concrete zoom `z = 1`. -/
theorem claim_C1_witness :
    ∃ ts, (Tiler.getTiles trivInvert ({} : Tiler) (worldProj 1)).1 = some ts ∧
      ts.length = 4 ^ 1 ∧
      (∀ tl ∈ ts, tl.isVisible = true) ∧
      (∀ tl ∈ ts, ∃ i j : ℕ, i < 2 ^ 1 ∧ j < 2 ^ 1 ∧
        tl.xyz = ((i : ℚ), (j : ℚ), ((1 : ℕ) : ℤ))) ∧
      (∀ i j : ℕ, i < 2 ^ 1 → j < 2 ^ 1 →
        ∃ tl ∈ ts, tl.xyz = ((i : ℚ), (j : ℚ), ((1 : ℕ) : ℤ))) ∧
      ((1 : ℕ) = 1 → (ts.map fun tl => tl.id).Perm ["0,0,1", "1,0,1", "0,1,1", "1,1,1"]) :=
  claim_C1_amended trivInvert 1 (by norm_num)

/-- Elimination form of a successful `enumTiles` run. -/
theorem enumTiles_some_elim {invert : PState → Vec2 → Vec2} {t : Tiler} {p : Proj}
    {es : List Tile} (h : Tiler.enumTiles invert t p = some es) :
    ∃ z cols rows, t.zoomOf p = some z ∧ t.colsOf p z = some cols ∧
      t.rowsOf p z = some rows ∧
      es = ((pairsOf rows cols).filter (Tiler.keepPair t z)).map fun yx =>
        Tiler.mkTileAt invert t p z yx.2 yx.1 := by
  unfold Tiler.enumTiles at h
  cases hz : t.zoomOf p with
  | none => rw [hz] at h; simp at h
  | some z =>
    rw [hz] at h
    simp only [Option.some_bind] at h
    cases hc : t.colsOf p z with
    | none => rw [hc] at h; simp at h
    | some cols =>
      rw [hc] at h
      simp only [Option.some_bind] at h
      cases hr : t.rowsOf p z with
      | none => rw [hr] at h; simp at h
      | some rows =>
        rw [hr] at h
        simp only [Option.some_bind] at h
        exact ⟨z, cols, rows, rfl, hc, hr, (Option.some_inj.mp h).symm⟩

/-- Elimination form of a successful `getTiles` run: the returned list
is the visible-first reordering of the kept enumeration pairs. -/
theorem getTiles_some_elim {invert : PState → Vec2 → Vec2} {t : Tiler} {p : Proj}
    {ts : List Tile} (h : (Tiler.getTiles invert t p).1 = some ts) :
    ∃ z cols rows, t.zoomOf p = some z ∧ t.colsOf p z = some cols ∧
      t.rowsOf p z = some rows ∧
      ts = visFirst (((pairsOf rows cols).filter (Tiler.keepPair t z)).map fun yx =>
        Tiler.mkTileAt invert t p z yx.2 yx.1) := by
  rw [getTiles_fst_eq] at h
  cases he : Tiler.enumTiles invert t p with
  | none => rw [he] at h; simp at h
  | some es =>
    rw [he] at h
    simp only [Option.map_some'] at h
    obtain ⟨z, cols, rows, h1, h2, h3, h4⟩ := enumTiles_some_elim he
    exact ⟨z, cols, rows, h1, h2, h3, by rw [← Option.some_inj.mp h, h4]⟩

/-- C2: the integer zoom of every returned tile is the rounded
fractional zoom (`roundLog2` of `scale*2π/tileSize = 2*sPi/tileSize`)
clamped into the configured zoom range; in particular, when the
fractional zoom exceeds the configured maximum (`2^zoomRange.max <
2*sPi/tileSize`, i.e. `zFrac > zoomRange.max`) and the range is ordered,
every returned tile sits exactly at `zoomRange.max`, never above. -/
theorem claim_C2 (invert : PState → Vec2 → Vec2) (t : Tiler) (p : Proj)
    (ts : List Tile) (h : (Tiler.getTiles invert t p).1 = some ts) :
    (∃ r, roundLog2 (2 * p.sPi / t.tileSize) = some r ∧
      ∀ tl ∈ ts, tl.xyz.2.2 = clamp r t.zoomRange.1 t.zoomRange.2) ∧
    (t.zoomRange.1 ≤ t.zoomRange.2 →
      (2 : ℚ) ^ t.zoomRange.2 < 2 * p.sPi / t.tileSize →
      ∀ tl ∈ ts, tl.xyz.2.2 = t.zoomRange.2) := by
  obtain ⟨z, cols, rows, hz, _, _, hts⟩ := getTiles_some_elim h
  unfold Tiler.zoomOf at hz
  by_cases hpos : 0 < t.tileSize
  · rw [if_pos hpos, Option.map_eq_some'] at hz
    obtain ⟨r, hr, hrz⟩ := hz
    have hall : ∀ tl ∈ ts, tl.xyz.2.2 = clamp r t.zoomRange.1 t.zoomRange.2 := by
      intro tl htl
      rw [hts, mem_visFirst] at htl
      obtain ⟨yx, _, rfl⟩ := List.mem_map.mp htl
      rw [mkTileAt_xyz]
      exact hrz.symm
    refine ⟨⟨r, hr, hall⟩, ?_⟩
    intro hle hgt tl htl
    have h1 := hall tl htl
    have h2 : t.zoomRange.2 ≤ r := le_roundLog2 (le_of_lt hgt) hr
    rw [h1]
    unfold clamp
    rw [min_eq_right h2, max_eq_right hle]
  · rw [if_neg hpos] at hz
    simp at hz

/-- Witness for C2: the whole-world projection at zoom 25 against the
default configuration (maximum zoom 24) yields only tiles at zoom 24. -/
theorem claim_C2_witness :
    ∃ ts, (Tiler.getTiles trivInvert ({} : Tiler) (worldProj 25)).1 = some ts ∧
      ∀ tl ∈ ts, tl.xyz.2.2 = 24 := by
  obtain ⟨ts, h1, _⟩ := getTiles_worldProj trivInvert 0 25
  rw [marginTiler_zero] at h1
  refine ⟨ts, h1, ?_⟩
  have hb : (2 : ℚ) ^ (({} : Tiler).zoomRange.2) <
      2 * (worldProj 25).sPi / ({} : Tiler).tileSize := by
    show (2 : ℚ) ^ (24 : ℤ) < 2 * ((2 : ℚ) ^ (25 : ℕ) * 128) / 256
    have he : 2 * ((2 : ℚ) ^ (25 : ℕ) * 128) / 256 = (2 : ℚ) ^ (25 : ℕ) := by ring
    rw [he, show ((24) : ℤ) = ((24 : ℕ) : ℤ) from rfl, zpow_natCast]
    exact pow_lt_pow_right₀ (by norm_num) (by norm_num)
  exact (claim_C2 trivInvert {} (worldProj 25) ts h1).2 (by norm_num) hb

/-- Counterexample to C3 as frozen: for the default configuration and
the finite projection with `scale*π = 512` (zoom 2) but inverted x
dimensions `[[768, 0], [0, 768]]`, the clamped lower column bound (3)
exceeds the clamped upper column bound (0) by more than one, so the
array length `1 + 0 - 3 = -2` is negative and the JavaScript `Array`
constructor throws — `getTiles` fails instead of returning a (possibly
empty) tile sequence. -/
theorem claim_C3_counterexample :
    (Tiler.getTiles trivInvert ({} : Tiler)
      (⟨(512, 512), (768, 0), (0, 768), 512⟩ : Proj)).1 = none := by
  have hz : Tiler.zoomOf {} (⟨(512, 512), (768, 0), (0, 768), 512⟩ : Proj) = some 2 := by
    unfold Tiler.zoomOf
    rw [if_pos (show (0 : ℚ) < ({} : Tiler).tileSize by norm_num)]
    show (roundLog2 (2 * 512 / 256)).map _ = some 2
    rw [show (2 : ℚ) * 512 / 256 = (2 : ℚ) ^ (2 : ℤ) from by norm_num, roundLog2_pow2]
    show some (clamp 2 0 24) = some 2
    rw [show clamp (2 : ℤ) 0 24 = 2 from by decide]
  have hc : Tiler.colsOf {} (⟨(512, 512), (768, 0), (0, 768), 512⟩ : Proj) 2 = none := by
    unfold Tiler.colsOf
    have hk : Tiler.kOf (⟨(512, 512), (768, 0), (0, 768), 512⟩ : Proj) 2 = 256 := by
      unfold Tiler.kOf
      show 2 * (512 : ℚ) / (2 : ℚ) ^ (2 : ℤ) = 256
      norm_num
    have hv1 : (Tiler.viewMinOf (⟨(512, 512), (768, 0), (0, 768), 512⟩ : Proj)).1 = 768 := by
      show (512 : ℚ) - 512 + 768 = 768
      norm_num
    have hv2 : (Tiler.viewMaxOf (⟨(512, 512), (768, 0), (0, 768), 512⟩ : Proj)).1 = 0 := by
      show (512 : ℚ) - 512 + 0 = 0
      norm_num
    rw [hk, hv1, hv2]
    have hf1 : ⌊(768 : ℚ) / 256⌋ = 3 := by
      rw [show (768 : ℚ) / 256 = ((3 : ℤ) : ℚ) from by norm_num, Int.floor_intCast]
    have hf2 : ⌊(0 : ℚ) / 256⌋ = 0 := by
      rw [zero_div, Int.floor_zero]
    rw [hf1, hf2]
    have hmax : Tiler.maxTileOf 2 = 3 := by
      unfold Tiler.maxTileOf
      norm_num
    rw [hmax]
    have e3 : ((3 : ℤ) : ℚ) - ({} : Tiler).margin = 3 := by norm_num
    have e0 : ((0 : ℤ) : ℚ) + ({} : Tiler).margin = 0 := by norm_num
    rw [e3, e0]
    have hc3 : clamp (3 : ℚ) 0 3 = 3 := by
      unfold clamp
      rw [min_eq_left (by norm_num), max_eq_right (by norm_num)]
    have hc0 : clamp (0 : ℚ) 0 3 = 0 := by
      unfold clamp
      rw [min_eq_left (by norm_num), max_eq_right (by norm_num)]
    rw [hc3, hc0]
    exact range_eq_none (by norm_num)
  show ((Tiler.zoomOf {} _).bind _) = none
  rw [hz]
  simp only [Option.some_bind]
  rw [hc]
  rfl

/-- An index range whose clamped lower bound exceeds its clamped upper
bound by exactly one is empty, with no spurious entries. -/
theorem range_empty (a b : ℚ) (hab : b + 1 = a) : range a b = some [] := by
  have hlen : 1 + b - a = 0 := by linarith
  simp only [range, hlen]
  rw [if_pos]
  · simp
  · norm_num

/-- A candidate index range with ordered floors, natural margin and zoom
at most 31 materializes (the array length is an integer in `[1, 2^31]`). -/
theorem range_clamp_some (A B : ℤ) (m : ℕ) (z : ℤ) (hAB : A ≤ B) (hz31 : z ≤ 31) :
    ∃ L, range (clamp ((A : ℚ) - (m : ℕ)) 0 (Tiler.maxTileOf z))
           (clamp ((B : ℚ) + (m : ℕ)) 0 (Tiler.maxTileOf z)) = some L := by
  by_cases hzneg : z < 0
  · have hMneg : Tiler.maxTileOf z < 0 := by
      unfold Tiler.maxTileOf
      have h1 : (2 : ℚ) ^ z < 1 := zpow_lt_one_of_neg₀ (by norm_num) hzneg
      linarith
    have hcl : ∀ x : ℚ, clamp x 0 (Tiler.maxTileOf z) = 0 := by
      intro x
      unfold clamp
      rw [max_eq_left]
      exact le_trans (min_le_right _ _) (le_of_lt hMneg)
    rw [hcl, hcl]
    have h := range_int_eq 0 0 (by norm_num) (by norm_num)
    exact ⟨_, by simpa using h⟩
  · push_neg at hzneg
    have hM : Tiler.maxTileOf z = (((2 : ℤ) ^ z.toNat - 1 : ℤ) : ℚ) := by
      unfold Tiler.maxTileOf
      have h1 : (2 : ℚ) ^ z = (2 : ℚ) ^ (z.toNat : ℕ) := by
        rw [← zpow_natCast]
        congr 1
        omega
      rw [h1]
      push_cast
      ring
    have hMz0 : (0 : ℤ) ≤ 2 ^ z.toNat - 1 := by
      have h2 : (0 : ℤ) < 2 ^ z.toNat := by positivity
      omega
    have e1 : (A : ℚ) - (m : ℕ) = ((A - m : ℤ) : ℚ) := by push_cast; ring
    have e2 : (B : ℚ) + (m : ℕ) = ((B + m : ℤ) : ℚ) := by push_cast; ring
    have e0 : (0 : ℚ) = ((0 : ℤ) : ℚ) := by norm_num
    rw [hM, e1, e2, e0, clamp_intCast, clamp_intCast]
    have hlohi : clamp (A - m) 0 (2 ^ z.toNat - 1) ≤ clamp (B + m) 0 (2 ^ z.toNat - 1) :=
      clamp_le_clamp _ _ (by omega)
    have hlo0 : (0 : ℤ) ≤ clamp (A - m) 0 (2 ^ z.toNat - 1) := le_clamp _ _ _
    have hhiM : clamp (B + m) 0 (2 ^ z.toNat - 1) ≤ 2 ^ z.toNat - 1 := clamp_le _ hMz0
    have hpow : (2 : ℤ) ^ z.toNat ≤ 2 ^ 31 := pow_le_pow_right₀ (by norm_num) (by omega)
    have h31 : (2 : ℤ) ^ 31 = 2147483648 := by norm_num
    have h32' : (2 : ℤ) ^ 32 = 4294967296 := by norm_num
    refine ⟨_, range_int_eq _ _ (by omega) ?_⟩
    rw [h32']
    omega

/-- The candidate column range materializes under the benign conditions:
ordered viewport x-dimensions, positive pixel-per-grid factor, natural
margin, zoom at most 31. -/
theorem colsOf_some (t : Tiler) (p : Proj) (z : ℤ) (m : ℕ) (hm : t.margin = (m : ℕ))
    (hz31 : z ≤ 31) (hk : 0 < Tiler.kOf p z)
    (hd : (Tiler.viewMinOf p).1 ≤ (Tiler.viewMaxOf p).1) :
    ∃ cols, t.colsOf p z = some cols := by
  unfold Tiler.colsOf
  rw [hm]
  have hAB : ⌊(Tiler.viewMinOf p).1 / Tiler.kOf p z⌋ ≤ ⌊(Tiler.viewMaxOf p).1 / Tiler.kOf p z⌋ :=
    Int.floor_le_floor (div_le_div_of_nonneg_right hd hk.le)
  exact range_clamp_some _ _ m z hAB hz31

/-- Same for the candidate row range. -/
theorem rowsOf_some (t : Tiler) (p : Proj) (z : ℤ) (m : ℕ) (hm : t.margin = (m : ℕ))
    (hz31 : z ≤ 31) (hk : 0 < Tiler.kOf p z)
    (hd : (Tiler.viewMinOf p).2 ≤ (Tiler.viewMaxOf p).2) :
    ∃ rows, t.rowsOf p z = some rows := by
  unfold Tiler.rowsOf
  rw [hm]
  have hAB : ⌊(Tiler.viewMinOf p).2 / Tiler.kOf p z⌋ ≤ ⌊(Tiler.viewMaxOf p).2 / Tiler.kOf p z⌋ :=
    Int.floor_le_floor (div_le_div_of_nonneg_right hd hk.le)
  exact range_clamp_some _ _ m z hAB hz31

/-- C3 (amended: the no-failure guarantee holds for benign inputs —
positive scale, positive tile size, componentwise-ordered viewport
dimensions, a natural-number margin and zoom bounds at most 31; and the
empty-range clause holds when the clamped lower bound exceeds the
clamped upper bound by exactly one, while a gap of two or more makes the
source's `Array(1 + end - start)` throw, as the counterexample shows):
under these conditions `getTiles` returns a (possibly empty) tile
sequence, and `range` returns the empty sequence when the lower bound
exceeds the upper bound by one. -/
theorem claim_C3_amended (invert : PState → Vec2 → Vec2) (t : Tiler) (p : Proj) (m : ℕ)
    (hm : t.margin = (m : ℕ)) (hts : 0 < t.tileSize) (hs : 0 < p.sPi)
    (hd1 : p.dimMin.1 ≤ p.dimMax.1) (hd2 : p.dimMin.2 ≤ p.dimMax.2)
    (hz1 : t.zoomRange.1 ≤ 31) (hz2 : t.zoomRange.2 ≤ 31) :
    (∃ ts, (Tiler.getTiles invert t p).1 = some ts) ∧
    (∀ a b : ℚ, b + 1 = a → range a b = some []) := by
  have hq : 0 < 2 * p.sPi / t.tileSize := by positivity
  have hzoom : ∃ zz, t.zoomOf p = some zz ∧ zz ≤ 31 := by
    unfold Tiler.zoomOf
    rw [if_pos hts]
    unfold roundLog2
    rw [if_pos hq]
    refine ⟨_, rfl, ?_⟩
    unfold clamp
    exact max_le hz1 (le_trans (min_le_right _ _) hz2)
  obtain ⟨z, hz, hz31⟩ := hzoom
  have hk : 0 < Tiler.kOf p z := by
    unfold Tiler.kOf
    positivity
  obtain ⟨cols, hc⟩ := colsOf_some t p z m hm hz31 hk
    (by unfold Tiler.viewMinOf Tiler.viewMaxOf; dsimp only; linarith)
  obtain ⟨rows, hrw⟩ := rowsOf_some t p z m hm hz31 hk
    (by unfold Tiler.viewMinOf Tiler.viewMaxOf; dsimp only; linarith)
  constructor
  · have hfold : (Tiler.getTiles invert t p).1 = some (rows.foldl
        (fun acc y => cols.foldl (fun acc2 x =>
          Tiler.tileStep invert t p z acc2 y x) acc) []) := by
      unfold Tiler.getTiles
      rw [hz]
      simp only [Option.some_bind]
      rw [hc]
      simp only [Option.some_bind]
      rw [hrw]
      simp only [Option.some_bind]
    exact ⟨_, hfold⟩
  · exact range_empty

/-- Witness for C3 (amended) at the default configuration and the
whole-world projection at zoom 1. -/
theorem claim_C3_witness :
    (∃ ts, (Tiler.getTiles trivInvert ({} : Tiler) (worldProj 1)).1 = some ts) ∧
    (∀ a b : ℚ, b + 1 = a → range a b = some []) :=
  claim_C3_amended trivInvert {} (worldProj 1) 0 (by norm_num)
    (by norm_num) (by show (0 : ℚ) < (2 : ℚ) ^ (1 : ℕ) * 128; norm_num)
    (by show (0 : ℚ) ≤ (2 : ℚ) ^ (1 : ℕ) * 256; positivity)
    (by show (0 : ℚ) ≤ (2 : ℚ) ^ (1 : ℕ) * 256; positivity)
    (by norm_num) (by norm_num)

/-- An arithmetic progression of step one embeds as a sublist of a longer
one starting an integral number of steps earlier. -/
theorem progression_sublist {a b : ℚ} {n nn d : ℕ} (hab : a = b + d) (hnm : d + n ≤ nn) :
    ((List.range n).map fun v : ℕ => a + (v : ℚ)).Sublist
      ((List.range nn).map fun v : ℕ => b + (v : ℚ)) := by
  obtain ⟨e, he⟩ := Nat.exists_eq_add_of_le hnm
  have hm : nn = d + (n + e) := by omega
  subst hm
  rw [List.range_add, List.map_append, List.map_map]
  refine List.Sublist.trans ?_ (List.sublist_append_right _ _)
  have hfun : ((fun v : ℕ => b + (v : ℚ)) ∘ fun x : ℕ => d + x)
      = fun v : ℕ => a + (v : ℚ) := by
    funext v
    simp only [Function.comp, hab]
    push_cast
    ring
  rw [hfun]
  exact List.Sublist.map _ (List.range_sublist.mpr (by omega))

/-- Monotonicity of materialized ranges: wider rational bounds with an
integral left shift produce a superlist. -/
theorem range_sublist {a b : ℚ} {c e : ℚ} {L L' : List ℚ}
    (h : range a b = some L) (h' : range c e = some L')
    (hb : b ≤ e) (hd : ∃ d : ℕ, a = c + d) :
    L.Sublist L' := by
  obtain ⟨n, hn, rfl⟩ := range_eq_some h
  obtain ⟨nn, hnn, rfl⟩ := range_eq_some h'
  obtain ⟨d, hdd⟩ := hd
  have hdn : ((d + n : ℕ) : ℚ) ≤ (nn : ℚ) := by
    push_cast
    rw [hn, hnn]
    linarith
  exact progression_sublist hdd (by exact_mod_cast hdn)

/-- `maxTile` is negative at negative zoom. -/
theorem maxTileOf_neg {z : ℤ} (hz : z < 0) : Tiler.maxTileOf z < 0 := by
  unfold Tiler.maxTileOf
  have h1 : (2 : ℚ) ^ z < 1 := zpow_lt_one_of_neg₀ (by norm_num) hz
  linarith

/-- Clamping into a negative-topped interval from 0 collapses to 0. -/
theorem clamp_zero_of_neg {M : ℚ} (hM : M < 0) (x : ℚ) : clamp x 0 M = 0 := by
  unfold clamp
  rw [max_eq_left]
  exact le_trans (min_le_right _ _) (le_of_lt hM)

/-- `maxTile` at non-negative zoom is the integer `2^z - 1`. -/
theorem maxTileOf_intCast {z : ℤ} (hz : 0 ≤ z) :
    Tiler.maxTileOf z = ((2 ^ z.toNat - 1 : ℤ) : ℚ) := by
  unfold Tiler.maxTileOf
  have h1 : (2 : ℚ) ^ z = (2 : ℚ) ^ (z.toNat : ℕ) := by
    rw [← zpow_natCast]
    congr 1
    omega
  rw [h1]
  push_cast
  ring

/-- Increasing the margin by one only widens a clamped candidate range:
the materialized index list for margin `m` is a sublist of the one for
margin `m + 1`. -/
theorem range_margin_sublist (A B : ℤ) (m : ℕ) (z : ℤ) {L L' : List ℚ}
    (h : range (clamp ((A : ℚ) - (m : ℕ)) 0 (Tiler.maxTileOf z))
           (clamp ((B : ℚ) + (m : ℕ)) 0 (Tiler.maxTileOf z)) = some L)
    (h' : range (clamp ((A : ℚ) - ((m + 1 : ℕ) : ℚ)) 0 (Tiler.maxTileOf z))
           (clamp ((B : ℚ) + ((m + 1 : ℕ) : ℚ)) 0 (Tiler.maxTileOf z)) = some L') :
    L.Sublist L' := by
  apply range_sublist h h'
  · apply clamp_le_clamp
    push_cast
    linarith
  · by_cases hzneg : z < 0
    · rw [clamp_zero_of_neg (maxTileOf_neg hzneg), clamp_zero_of_neg (maxTileOf_neg hzneg)]
      exact ⟨0, by norm_num⟩
    · push_neg at hzneg
      have hM := maxTileOf_intCast hzneg
      have e1 : (A : ℚ) - (m : ℕ) = ((A - m : ℤ) : ℚ) := by push_cast; ring
      have e2 : (A : ℚ) - ((m + 1 : ℕ) : ℚ) = ((A - (m + 1) : ℤ) : ℚ) := by push_cast; ring
      have e0 : (0 : ℚ) = ((0 : ℤ) : ℚ) := by norm_num
      rw [hM, e1, e2, e0, clamp_intCast, clamp_intCast]
      have hle : clamp (A - (m + 1)) 0 (2 ^ z.toNat - 1)
          ≤ clamp (A - m) 0 (2 ^ z.toNat - 1) := clamp_le_clamp _ _ (by omega)
      refine ⟨(clamp (A - m) 0 (2 ^ z.toNat - 1)
        - clamp (A - (m + 1)) 0 (2 ^ z.toNat - 1)).toNat, ?_⟩
      exact_mod_cast (show clamp (A - m) 0 (2 ^ z.toNat - 1)
        = clamp (A - (m + 1)) 0 (2 ^ z.toNat - 1)
          + (clamp (A - m) 0 (2 ^ z.toNat - 1)
            - clamp (A - (m + 1)) 0 (2 ^ z.toNat - 1)).toNat by omega)

/-- Columns only grow when the margin grows by one. -/
theorem colsOf_margin_sublist (t : Tiler) (p : Proj) (z : ℤ) (m : ℕ)
    {cols cols' : List ℚ}
    (h : Tiler.colsOf { t with margin := (m : ℕ) } p z = some cols)
    (h' : Tiler.colsOf { t with margin := ((m + 1 : ℕ) : ℚ) } p z = some cols') :
    cols.Sublist cols' := by
  unfold Tiler.colsOf at h h'
  exact range_margin_sublist _ _ m z h h'

/-- Rows only grow when the margin grows by one. -/
theorem rowsOf_margin_sublist (t : Tiler) (p : Proj) (z : ℤ) (m : ℕ)
    {rows rows' : List ℚ}
    (h : Tiler.rowsOf { t with margin := (m : ℕ) } p z = some rows)
    (h' : Tiler.rowsOf { t with margin := ((m + 1 : ℕ) : ℚ) } p z = some rows') :
    rows.Sublist rows' := by
  unfold Tiler.rowsOf at h h'
  exact range_margin_sublist _ _ m z h h'

/-- C7: for a fixed projection and configuration with non-negative
integer margin `m`, whenever both calls return, the call with margin
`m + 1` returns at least as many tiles as the call with margin `m` (the
candidate index ranges only grow, clamped at the world edges). -/
theorem claim_C7 (invert : PState → Vec2 → Vec2) (t : Tiler) (p : Proj) (m : ℕ)
    (ts ts' : List Tile)
    (h : (Tiler.getTiles invert { t with margin := (m : ℕ) } p).1 = some ts)
    (h' : (Tiler.getTiles invert { t with margin := ((m + 1 : ℕ) : ℚ) } p).1 = some ts') :
    ts.length ≤ ts'.length := by
  obtain ⟨z, cols, rows, hz, hc, hr, hts⟩ := getTiles_some_elim h
  obtain ⟨z', cols', rows', hz', hc', hr', hts'⟩ := getTiles_some_elim h'
  have hzz : z = z' := by
    have he : Tiler.zoomOf { t with margin := (m : ℕ) } p
        = Tiler.zoomOf { t with margin := ((m + 1 : ℕ) : ℚ) } p := rfl
    rw [he, hz'] at hz
    exact Option.some_inj.mp hz.symm
  subst hzz
  have hcs : cols.Sublist cols' := colsOf_margin_sublist t p z m hc hc'
  have hrs : rows.Sublist rows' := rowsOf_margin_sublist t p z m hr hr'
  rw [hts, hts', length_visFirst, length_visFirst, List.length_map, List.length_map]
  have hkeq : Tiler.keepPair { t with margin := ((m + 1 : ℕ) : ℚ) } z
      = Tiler.keepPair { t with margin := (m : ℕ) } z := rfl
  rw [hkeq]
  exact List.Sublist.length_le ((pairsOf_sublist hrs hcs).filter _)

/-- Witness for C7: the whole-world projection at zoom 1 with margins 0
and 1 (both runs return four tiles). -/
theorem claim_C7_witness :
    ∃ ts ts',
      (Tiler.getTiles trivInvert { ({} : Tiler) with margin := ((0 : ℕ) : ℚ) }
        (worldProj 1)).1 = some ts ∧
      (Tiler.getTiles trivInvert { ({} : Tiler) with margin := ((0 + 1 : ℕ) : ℚ) }
        (worldProj 1)).1 = some ts' ∧
      ts.length ≤ ts'.length := by
  have h0 := getTiles_world1 trivInvert 0
  have h1 := getTiles_world1 trivInvert 1
  exact ⟨_, _, h0, h1, claim_C7 trivInvert {} (worldProj 1) 0 _ _ h0 h1⟩
